import Mathlib

/-!
# Verification of the chained hash table in `HashTable.cpp`

This file is a shallow embedding of the course-planner hash table
(`HashTable.cpp`: struct `Course`, class `HashTable` with `hash`, `Insert`,
`Search`, `Sort`, `Resize`) together with proofs about it.

Modelling conventions, written once here and referenced below:

* A C++ `std::string` key is modelled as its byte sequence, `List Nat`
  (each element a byte value, below 256).  String equality is list equality
  and `std::string::operator<` is lexicographic byte comparison (`idLt`).
* The 32-bit machine integers are modelled as `Nat` with explicit reduction
  modulo `2^32` wherever the C++ arithmetic can wrap.  The accumulator of
  `HashTable::hash` is a *signed* `int`; signed two's-complement wraparound
  is the observed behaviour and is modelled by tracking the 32-bit pattern.
  At `key % nodes.size()` the `int` is converted to the 64-bit `size_t`
  (LP64 model), which sign-extends: bit patterns at or above `2^31` become
  `pattern + (2^64 - 2^32)`.  This conversion is `toSizeT`.
* A bucket (`Node` head plus its `next` chain) is modelled as a
  `List Course`, head first; the empty list is the unoccupied head
  (`key == UINT_MAX`, `next == nullptr`).  This is faithful because the
  stored `key` field of an occupied node is a hash value, which is smaller
  than the capacity and hence never equal to `UINT_MAX`, and because an
  unoccupied head never has a non-null chain (entries are only ever
  appended to occupied heads, and there is no deletion).  The `key` field
  and the derived `loadFactor` member carry no further observable state,
  so the record keeps only `nodes`, `tableSize` and `numEntries`.
* `HashTable::Insert` and `HashTable::Resize` are mutually recursive in the
  C++ (re-insertion during a resize goes through the ordinary `Insert`
  path, which re-checks the load factor).  The embedding `insertFuel` takes
  an explicit recursion-depth fuel and returns `none` either when fuel runs
  out or when the table has zero buckets, in which case the C++ computes
  `key % 0` — undefined behaviour.  Theorems that mention `none`
  distinguish the two sources by quantifying over the fuel.
* The prime-search loop of `Resize` is `primeLoopF`, again with fuel;
  `2 * tableSize + 4` steps are provably more than the loop can take
  (`primeLoopF_stable`, `nextSize_stable`), so `nextSize` is the exact
  loop result.
  The loop variables fit comfortably in their C++ types for every capacity
  considered here, so no wraparound is modelled inside the loop.
* `std::sort` (called by `HashTable::Sort`) promises only a sorted
  permutation; it is *not* a stable sort.  The call is therefore modelled
  relationally by `StdSortOutput`: any sorted permutation of the collected
  list is an admissible output.
-/

/-- Modulus of 32-bit machine arithmetic. -/
def M32 : Nat := 4294967296

/-- Modulus of 64-bit machine arithmetic (`size_t` in the LP64 model). -/
def M64 : Nat := 18446744073709551616

/-- The 32-bit pattern of `int(courseId[i])`: `char` is signed, so byte
values of 128 and above sign-extend.  All keys in the reference scenarios
are ASCII, where this is the identity. -/
def charBits (b : Nat) : Nat := if b < 128 then b else (b + (M32 - 256)) % M32

/-- One iteration of the loop in `HashTable::hash`:
`key += int(courseId[i]); key *= key;` on the 32-bit pattern of `key`. -/
def hashStep (k b : Nat) : Nat :=
  (((k + charBits b) % M32) * ((k + charBits b) % M32)) % M32

/-- The 32-bit pattern of the accumulator `key` after the loop of
`HashTable::hash`, starting from `int key = 0`. -/
def hashAcc (id : List Nat) : Nat := id.foldl hashStep 0

/-- Conversion of the signed 32-bit pattern `b` to `size_t` (64-bit),
as performed implicitly in `key % nodes.size()`: non-negative values are
unchanged, negative values sign-extend. -/
def toSizeT (b : Nat) : Nat := if b < 2 ^ 31 then b else b + (M64 - M32)

/-- The value of `HashTable::hash(courseId)` on a table whose `nodes`
vector has size `m` (the function reduces modulo `nodes.size()`).
Meaningful only for `m ≥ 1`; at `m = 0` the C++ divides by zero, which the
table operations below guard against explicitly. -/
def hashVal (m : Nat) (id : List Nat) : Nat := toSizeT (hashAcc id) % m

/-- The hash algorithm exactly as the specification words it (for the
refinement comparison of claim C2): the same accumulator loop carried out
on a fixed-width *unsigned* 32-bit integer, reduced modulo the capacity.
For every key the accumulator pattern agrees with `hashAcc`; the two
differ only in the final reduction, which here has no sign extension. -/
def hashRefVal (m : Nat) (id : List Nat) : Nat := hashAcc id % m

/-- The record type `Course` of `HashTable.cpp`: an id (byte string), a
title, and an ordered list of prerequisite ids.  Titles and prerequisites
are never inspected by the table, so their precise string model is
irrelevant; ids are byte lists (see the header comment). -/
structure Course where
  courseId : List Nat
  courseTitle : String
  prerequisites : List String
deriving DecidableEq

/-- The default-constructed `Course() { }`: all members empty. -/
def defaultCourse : Course := ⟨[], "", []⟩

/-- The table state: the bucket vector `nodes` (each bucket a chain,
head first), the member `tableSize`, and the member `numEntries`. -/
structure HashTable where
  nodes : List (List Course)
  tableSize : Nat
  numEntries : Nat
deriving DecidableEq

/-- The constant `DEFAULT_SIZE = 179`. -/
def DEFAULT_SIZE : Nat := 179

/-- The constructor `HashTable(unsigned int size)`: set `tableSize`,
resize `nodes` to it, fill with empty nodes, `numEntries = 0`.
The default constructor is `mkTable DEFAULT_SIZE`. -/
def mkTable (size : Nat) : HashTable :=
  ⟨List.replicate size [], size, 0⟩

/-- The prime-search loop of `HashTable::Resize`, with step fuel:

```
for (int i = 2; i <= newSize / 2; ++i)
  if (newSize % i == 0) { newSize += 1; continue; }
```

`primeLoopF f i n` runs the loop from counter value `i` and current
`newSize = n`.  Note the `continue` resumes the `for` loop with `i`
incremented; it does not restart the divisor scan (and the enclosing
`while (!isPrime)` always terminates after this single scan, because
`isPrime = true` is reached unconditionally once the `for` loop exits). -/
def primeLoopF : Nat → Nat → Nat → Nat
  | 0, _, n => n
  | f + 1, i, n =>
    if i ≤ n / 2 then
      (if n % i = 0 then primeLoopF f (i + 1) (n + 1) else primeLoopF f (i + 1) n)
    else n

/-- The new capacity chosen by `HashTable::Resize` for old capacity `ts`:
run the divisor-scan loop starting from `newSize = tableSize * 2`, `i = 2`.
The fuel `2 * ts + 4` exceeds the number of loop steps
(`primeLoopF_stable` below), so this is the exact loop result. -/
def nextSize (ts : Nat) : Nat := primeLoopF (2 * ts + 4) 2 (2 * ts)

/-- The store-and-count part of `HashTable::Insert` (everything before the
load-factor check): compute `key = hash(course.courseId)`; if the bucket
head is unoccupied, put the record there; otherwise append a new node at
the tail of the chain; then `numEntries += 1`.  Both branches amount to
appending at the tail of the bucket list. -/
def insertStore (t : HashTable) (c : Course) : HashTable :=
  ⟨t.nodes.set (hashVal t.nodes.length c.courseId)
      (if t.nodes.getD (hashVal t.nodes.length c.courseId) [] = [] then [c]
       else t.nodes.getD (hashVal t.nodes.length c.courseId) [] ++ [c]),
   t.tableSize, t.numEntries + 1⟩

/-- The full `HashTable::Insert`, with resize-recursion fuel.  After the
store, the load factor `double(numEntries) / tableSize` is compared with
`1.0`; for the integer magnitudes involved the `double` division is exact
enough that the test is equivalent to `tableSize ≤ numEntries + 1`
(both quantities are far below `2^53`).  On overflow `Resize` is invoked:
it copies the buckets, builds a fresh store of `nextSize tableSize` empty
buckets with `numEntries = 0`, and re-inserts every stored record in
bucket-then-chain order through this very `Insert` (hence the fuel).
A zero-bucket table makes `hash` divide by zero: result `none`. -/
def insertFuel : Nat → HashTable → Course → Option HashTable
  | 0, _, _ => none
  | fuel + 1, t, c =>
    if t.nodes.length = 0 then none
    else if t.tableSize ≤ t.numEntries + 1 then
      (insertStore t c).nodes.foldl
        (fun acc b => b.foldl (fun acc2 d => acc2.bind (fun s => insertFuel fuel s d)) acc)
        (some (mkTable (nextSize t.tableSize)))
    else some (insertStore t c)

/-- The body of `HashTable::Resize` as a standalone function (the table it
receives is the state at the call site inside `Insert`, i.e. with the new
record already stored and counted).  `insertFuel (fuel+1)` literally
reduces to this on the overflow branch (`insertFuel_succ`). -/
def resizeFuel (fuel : Nat) (t : HashTable) : Option HashTable :=
  t.nodes.foldl
    (fun acc b => b.foldl (fun acc2 d => acc2.bind (fun s => insertFuel fuel s d)) acc)
    (some (mkTable (nextSize t.tableSize)))

/-- A sequence of `Insert` calls, one per list element, left to right —
the record-source collaborator feeding the table. -/
def insertList (fuel : Nat) : HashTable → List Course → Option HashTable
  | t, [] => some t
  | t, c :: cs =>
    match insertFuel fuel t c with
    | none => none
    | some t' => insertList fuel t' cs

/-- Folding a list of records through `insertFuel` on an optional table —
the shape of the re-insertion traversal inside `Resize`. -/
def foldIns (fuel : Nat) (L : List Course) (acc : Option HashTable) : Option HashTable :=
  L.foldl (fun a c => a.bind (fun s => insertFuel fuel s c)) acc

/-- The chain walk of `HashTable::Search` on one bucket: an unoccupied
head returns the empty course; an occupied head is checked first, then the
`next` chain is walked, returning the first node whose `courseId` matches;
with no match the default course is returned.  All cases coincide with a
single head-first first-match scan. -/
def searchList (key : List Nat) : List Course → Course
  | [] => defaultCourse
  | c :: cs => if c.courseId = key then c else searchList key cs

/-- The full `HashTable::Search(courseId)`: hash the key (division by zero
on a zero-bucket table, hence `none` there) and scan the bucket. -/
def searchO (t : HashTable) (key : List Nat) : Option Course :=
  if t.nodes.length = 0 then none
  else some (searchList key (t.nodes.getD (hashVal t.nodes.length key) []))

/-- The state-transformer reading of `HashTable::Search`: the method body
computes locals from the members and returns a course; it contains no
assignment to any member, so the post-state is the pre-state. -/
def searchProc (t : HashTable) (key : List Nat) : HashTable × Option Course :=
  (t, searchO t key)

/-- The collection loop of `HashTable::Sort`: walk every bucket in index
order (skipping unoccupied heads, which are empty buckets), pushing the
head's course and then every chained course.  This is the concatenation of
the buckets in bucket-then-chain order. -/
def sortCollect (t : HashTable) : List Course :=
  t.nodes.foldl (fun acc b => acc ++ b) []

/-- Strict lexicographic comparison of byte strings — the comparator
`less_than_key` of `HashTable.cpp`, i.e. `course1.courseId <
course2.courseId` on `std::string` (memcmp order: unsigned byte
comparison, shorter prefix first). -/
def idLt : List Nat → List Nat → Bool
  | _, [] => false
  | [], _ :: _ => true
  | a :: as, b :: bs => if a < b then true else if b < a then false else idLt as bs

/-- Sortedness of a course list in the comparator's weak order: no element
strictly below a predecessor (`is_sorted` for `std::sort`). -/
abbrev SortedByIdLe (l : List Course) : Prop :=
  l.Pairwise (fun a b => idLt b.courseId a.courseId = false)

/-- The contract of the `std::sort` call in `HashTable::Sort`: the output
is *some* permutation of the input that is sorted for the comparator.
`std::sort` guarantees nothing more — in particular not stability. -/
abbrev StdSortOutput (inp out : List Course) : Prop :=
  out.Perm inp ∧ SortedByIdLe out

/-- Membership test used throughout: the record's id equals `id`. -/
def byId (id : List Nat) (c : Course) : Bool := decide (c.courseId = id)

/-- Equal-id records appear in the output in their input order: the
stability property the specification ascribes to `AllSorted`. -/
def StableTies (inp out : List Course) : Prop :=
  ∀ id, out.filter (byId id) = inp.filter (byId id)

/-- Number of occupied entries reachable across all chains. -/
def totalEntries (t : HashTable) : Nat := (t.nodes.map List.length).sum

/-- Bucket number `k` of the table (empty for out-of-range `k`). -/
def bucketAt (t : HashTable) (k : Nat) : List Course := t.nodes.getD k []

/-- The entries carrying `id`, in chain order, in the bucket that `id`
hashes to under the current capacity. -/
def chainFor (t : HashTable) (id : List Nat) : List Course :=
  (bucketAt t (hashVal t.nodes.length id)).filter (byId id)

/-- Structural well-formedness maintained by every operation: the `nodes`
vector has `tableSize` buckets, the capacity is positive, and every stored
record sits in the bucket its id hashes to under the current capacity. -/
def WF (t : HashTable) : Prop :=
  t.nodes.length = t.tableSize ∧ 1 ≤ t.tableSize ∧
    ∀ k c, c ∈ bucketAt t k → hashVal t.nodes.length c.courseId = k

/-- Full tracking invariant: the table is well formed, `numEntries` counts
the stored entries, and for every id the chain segment carrying that id
lists exactly the records of the insertion history with that id, in
insertion order. -/
def Tracks (t : HashTable) (h : List Course) : Prop :=
  WF t ∧ t.numEntries = totalEntries t ∧
    ∀ id, chainFor t id = h.filter (byId id)

/-- Sample records.  Byte lists spell ASCII ids:
`[67, 83, 49, 48, 49] = "CS101"`, `[67, 83, 49, 48, 50] = "CS102"`,
`[77, 65, 84, 72, 50, 48, 49] = "MATH201"`. -/
def cs101 : Course := ⟨[67, 83, 49, 48, 49], "Intro to Computer Science", []⟩

/-- Second sample record, id `"CS102"`. -/
def cs102 : Course := ⟨[67, 83, 49, 48, 50], "Data Structures", ["CS101"]⟩

/-- Third sample record, id `"MATH201"`. -/
def math201 : Course := ⟨[77, 65, 84, 72, 50, 48, 49], "Discrete Mathematics", []⟩

/-- A duplicate of `cs101`: same id `"CS101"`, different title. -/
def cs101dup : Course := ⟨[67, 83, 49, 48, 49], "Duplicate Title", []⟩

/-- Twelve records with distinct one-byte ids, used to fill a capacity-12
table up to its resize trigger. -/
def twelveCourses : List Course :=
  (List.range 12).map (fun i => ⟨[65 + i], "filler", []⟩)

/-- A table holding `cs101` then `cs101dup` in one chain: built by two
ordinary inserts into a fresh capacity-7 table. -/
def dupTable : HashTable :=
  (insertList 1 (mkTable 7) [cs101, cs101dup]).getD (mkTable 7)

/-- A capacity-5 table holding `cs101`, used by witnesses. -/
def oneTable : HashTable :=
  (insertList 1 (mkTable 5) [cs101]).getD (mkTable 5)

/-! ## Helper lemmas about the prime-search loop -/

/-- The loop never decreases `newSize`. -/
theorem primeLoopF_ge : ∀ f i n, n ≤ primeLoopF f i n := by
  intro f
  induction f with
  | zero => intro i n; simp [primeLoopF]
  | succ f ih =>
    intro i n
    simp only [primeLoopF]
    split
    · split
      · exact Nat.le_trans (Nat.le_succ n) (ih (i + 1) (n + 1))
      · exact ih (i + 1) n
    · exact Nat.le_refl n

/-- Extra fuel beyond the stated bound does not change the loop result:
with `n + 3 ≤ 2 * i + f` the loop exits before consuming `f` steps. -/
theorem primeLoopF_stable : ∀ f i n, n + 3 ≤ 2 * i + f →
    primeLoopF f i n = primeLoopF (f + 1) i n := by
  intro f
  induction f with
  | zero =>
    intro i n h
    have hg : ¬ i ≤ n / 2 := by omega
    simp [primeLoopF, hg]
  | succ f ih =>
    intro i n h
    by_cases hg : i ≤ n / 2
    · have hg2 : 2 * i ≤ n := by omega
      by_cases hd : n % i = 0
      · simpa [primeLoopF, hg, hd] using ih (i + 1) (n + 1) (by omega)
      · simpa [primeLoopF, hg, hd] using ih (i + 1) n (by omega)
    · simp [primeLoopF, hg]

/-- The chosen fuel `2 * ts + 4` is more than the loop can use. -/
theorem nextSize_stable (ts : Nat) :
    nextSize ts = primeLoopF (2 * ts + 5) 2 (2 * ts) := by
  have := primeLoopF_stable (2 * ts + 4) 2 (2 * ts) (by omega)
  simpa [nextSize] using this

/-- The new capacity is at least double the old one. -/
theorem nextSize_ge (ts : Nat) : 2 * ts ≤ nextSize ts := primeLoopF_ge _ _ _

/-! ## Helper lemmas about the table operations -/

/-- Unfolding of `insertFuel` at positive fuel in terms of `insertStore`
and `resizeFuel`: guard against the zero-capacity division, store the
record and bump the count, then either return or resize. -/
theorem insertFuel_succ (fuel : Nat) (t : HashTable) (c : Course) :
    insertFuel (fuel + 1) t c =
      if t.nodes.length = 0 then none
      else if t.tableSize ≤ t.numEntries + 1 then resizeFuel fuel (insertStore t c)
      else some (insertStore t c) := rfl

/-- Both branches of the head-occupancy test in `Insert` append the new
record at the tail of the bucket. -/
theorem if_bucket_append (b : List Course) (c : Course) :
    (if b = [] then [c] else b ++ [c]) = b ++ [c] := by
  cases b <;> simp

/-- A `foldIns` that starts from a failed state stays failed. -/
theorem foldIns_none (fuel : Nat) : ∀ L : List Course, foldIns fuel L none = none := by
  intro L
  induction L with
  | nil => rfl
  | cons c cs ih => simpa [foldIns] using ih

/-- Unfolding `foldIns` over a cons cell. -/
theorem foldIns_cons (fuel : Nat) (c : Course) (cs : List Course) (acc : Option HashTable) :
    foldIns fuel (c :: cs) acc = foldIns fuel cs (acc.bind (fun s => insertFuel fuel s c)) := rfl

/-- Unfolding `foldIns` over nil. -/
theorem foldIns_nil (fuel : Nat) (acc : Option HashTable) : foldIns fuel [] acc = acc := rfl

/-- The resize branch of `Insert` is `foldIns` over the flattened buckets:
the two nested re-insertion loops visit the entries bucket by bucket,
chain order inside each bucket. -/
theorem resizeFuel_eq_foldIns (fuel : Nat) (t : HashTable) :
    resizeFuel fuel t = foldIns fuel t.nodes.flatten (some (mkTable (nextSize t.tableSize))) := by
  simp [resizeFuel, foldIns, List.foldl_flatten]

/-- Reading a just-written bucket. -/
theorem getD_set_self {α : Type} (l : List α) (k : Nat) (x d : α) (hk : k < l.length) :
    (l.set k x).getD k d = x := by
  simp [List.getD_eq_getElem?_getD, List.getElem?_set_self hk]

/-- Reading any other bucket after a write. -/
theorem getD_set_ne {α : Type} (l : List α) {k j : Nat} (x d : α) (hkj : k ≠ j) :
    (l.set k x).getD j d = l.getD j d := by
  simp [List.getD_eq_getElem?_getD, List.getElem?_set_ne hkj]

/-- Buckets of a fresh table are empty. -/
theorem getD_replicate_nil (n k : Nat) :
    (List.replicate n ([] : List Course)).getD k [] = [] := by
  rcases Nat.lt_or_ge k n with h | h
  · simp [List.getD_eq_getElem?_getD, List.getElem?_replicate, h]
  · simp [List.getD_eq_getElem?_getD, List.getElem?_replicate, Nat.not_lt.mpr h]

/-- Replacing one bucket changes the entry count by the length difference. -/
theorem sum_len_set : ∀ (l : List (List Course)) (k : Nat) (b : List Course), k < l.length →
    (((l.set k b).map List.length).sum + (l.getD k []).length =
      ((l.map List.length)).sum + b.length) := by
  intro l
  induction l with
  | nil => intro k b hk; simp at hk
  | cons x xs ih =>
    intro k b hk
    cases k with
    | zero =>
      simp only [List.set, List.map, List.sum_cons, List.getD_cons_zero]
      omega
    | succ k =>
      have hk' : k < xs.length := by simpa using hk
      have := ih k b hk'
      simp only [List.set, List.map, List.sum_cons, List.getD_cons_succ]
      omega

/-- The hash of any key addresses a real bucket on a non-empty store. -/
theorem hashVal_lt (m : Nat) (id : List Nat) (hm : 1 ≤ m) : hashVal m id < m :=
  Nat.mod_lt _ (by omega)

/-- The bucket scan of `Search` is the first-match lookup. -/
theorem searchList_eq_find? (key : List Nat) :
    ∀ l : List Course, searchList key l = (l.find? (byId key)).getD defaultCourse := by
  intro l
  induction l with
  | nil => rfl
  | cons c cs ih =>
    by_cases h : c.courseId = key
    · simp [searchList, h, List.find?_cons, byId]
    · simp [searchList, h, List.find?_cons, byId, ih]

/-- First match is the head of the filtered list. -/
theorem find?_eq_head?_filter {α : Type} (p : α → Bool) :
    ∀ l : List α, l.find? p = (l.filter p).head? := by
  intro l
  induction l with
  | nil => rfl
  | cons a as ih =>
    rw [List.find?_cons, List.filter_cons]
    cases hp : p a with
    | true => simp
    | false =>
      show List.find? p as = (List.filter p as).head?
      exact ih

/-- Appending behind a bucket that already holds a match does not change
what the scan returns. -/
theorem searchList_append_of_match (key : List Nat) (l₂ : List Course) :
    ∀ l : List Course, (∃ e ∈ l, e.courseId = key) →
      searchList key (l ++ l₂) = searchList key l := by
  intro l
  induction l with
  | nil => rintro ⟨e, he, _⟩; simp at he
  | cons c cs ih =>
    rintro ⟨e, he, hekey⟩
    by_cases h : c.courseId = key
    · simp [searchList, h]
    · rcases List.mem_cons.mp he with he | he
      · subst he; exact absurd hekey h
      · simpa [searchList, h] using ih ⟨e, he, hekey⟩

/-- Lists with the same id-classes are permutations of one another. -/
theorem perm_of_filter_byId_eq (l₁ l₂ : List Course)
    (h : ∀ id, l₁.filter (byId id) = l₂.filter (byId id)) : l₁.Perm l₂ := by
  rw [List.perm_iff_count]
  intro a
  have hpa : byId a.courseId a = true := by simp [byId]
  have h₁ : List.count a (l₁.filter (byId a.courseId)) = List.count a l₁ :=
    List.count_filter hpa
  have h₂ : List.count a (l₂.filter (byId a.courseId)) = List.count a l₂ :=
    List.count_filter hpa
  rw [← h₁, ← h₂, h a.courseId]

/-- A bucket whose entries all hash to a value other than the key's hash
contributes nothing to the key's id-class. -/
theorem bucket_filter_nil (m : Nat) (id : List Nat) (l : List Course) (v : Nat)
    (hv : ∀ c ∈ l, hashVal m c.courseId = v) (hne : v ≠ hashVal m id) :
    l.filter (byId id) = [] := by
  rw [List.filter_eq_nil_iff]
  intro c hc hby
  have hid : c.courseId = id := by simpa [byId] using hby
  exact hne (by rw [← hv c hc, hid])

/-- Offset form of the bucket-locality argument: if every entry of every
bucket of `bs` hashes to `d` plus its bucket index, then filtering the
flattening by an id keeps exactly the id's own bucket's contribution. -/
theorem flatten_filter_aux (m : Nat) (id : List Nat) :
    ∀ (bs : List (List Course)) (d : Nat),
      (∀ k c, c ∈ bs.getD k [] → hashVal m c.courseId = d + k) →
      bs.flatten.filter (byId id) = (bs.getD (hashVal m id - d) []).filter (byId id) := by
  intro bs
  induction bs with
  | nil => intro d hH; simp
  | cons b bs ih =>
    intro d hH
    have hH0 : ∀ c ∈ b, hashVal m c.courseId = d := by
      intro c hc
      simpa using hH 0 c (by simpa [List.getD_cons_zero] using hc)
    have hH' : ∀ k c, c ∈ bs.getD k [] → hashVal m c.courseId = (d + 1) + k := by
      intro k c hc
      have := hH (k + 1) c (by simpa [List.getD_cons_succ] using hc)
      omega
    have hflatbs : ∀ c ∈ bs.flatten, ∃ k, c ∈ bs.getD k [] := by
      intro c hc
      obtain ⟨l, hl, hcl⟩ := List.mem_flatten.mp hc
      obtain ⟨k, hk, hlk⟩ := List.getElem_of_mem hl
      refine ⟨k, ?_⟩
      rw [List.getD_eq_getElem?_getD, List.getElem?_eq_getElem hk, hlk]
      exact hcl
    rw [List.flatten_cons, List.filter_append]
    rcases Nat.lt_trichotomy (hashVal m id) d with hlt | heq | hgt
    · have h1 : b.filter (byId id) = [] :=
        bucket_filter_nil m id b d hH0 (by omega)
      have h2 := ih (d + 1) hH'
      have h3 : (bs.getD (hashVal m id - (d + 1)) []).filter (byId id) = [] := by
        have hz : hashVal m id - (d + 1) = 0 := by omega
        rw [hz]
        cases bs with
        | nil => simp
        | cons b' bs' =>
          exact bucket_filter_nil m id _ (d + 1)
            (fun c hc => by simpa using hH' 0 c hc) (by omega)
      have hz' : hashVal m id - d = 0 := by omega
      rw [h1, h2, h3, hz', List.getD_cons_zero, h1]
      rfl
    · have h2 : bs.flatten.filter (byId id) = [] := by
        rw [List.filter_eq_nil_iff]
        intro c hc hby
        obtain ⟨k, hck⟩ := hflatbs c hc
        have hid : c.courseId = id := by simpa [byId] using hby
        have := hH' k c hck
        rw [hid, ← heq] at this
        omega
      rw [h2, ← heq, Nat.sub_self, List.getD_cons_zero]
      simp
    · have h1 : b.filter (byId id) = [] :=
        bucket_filter_nil m id b d hH0 (by omega)
      have h2 := ih (d + 1) hH'
      have hidx : hashVal m id - d = (hashVal m id - (d + 1)) + 1 := by omega
      rw [h1, h2, hidx, List.getD_cons_succ]
      rfl

/-- With a well-formed table, filtering the flattened buckets by an id
yields exactly the id's chain segment. -/
theorem flatten_filter (t : HashTable) (hWF : WF t) (id : List Nat) :
    t.nodes.flatten.filter (byId id) = chainFor t id := by
  obtain ⟨hlen, hpos, hbuck⟩ := hWF
  have := flatten_filter_aux t.nodes.length id t.nodes 0
    (by intro k c hc; simpa using hbuck k c hc)
  simpa [chainFor, bucketAt] using this

/-- The tracking invariant depends on the history only through its
id-classes. -/
theorem tracks_congr (t : HashTable) (h₁ h₂ : List Course)
    (ht : Tracks t h₁) (hf : ∀ id, h₁.filter (byId id) = h₂.filter (byId id)) :
    Tracks t h₂ :=
  ⟨ht.1, ht.2.1, fun id => (ht.2.2 id).trans (hf id)⟩

/-- A freshly constructed table of positive capacity tracks the empty
history. -/
theorem mkTable_tracks (n : Nat) (hn : 1 ≤ n) : Tracks (mkTable n) [] := by
  refine ⟨⟨by simp [mkTable], by simpa [mkTable] using hn, ?_⟩, ?_, ?_⟩
  · intro k c hc
    simp [mkTable, bucketAt, getD_replicate_nil] at hc
  · simp [mkTable, totalEntries]
  · intro id
    simp [chainFor, bucketAt, mkTable, getD_replicate_nil]

/-- The store-and-count part of `Insert` extends the tracked history by
the inserted record. -/
theorem insertStore_tracks (t : HashTable) (c : Course) (h : List Course)
    (htr : Tracks t h) : Tracks (insertStore t c) (h ++ [c]) := by
  obtain ⟨⟨hlen, hpos, hbuck⟩, hcount, hchain⟩ := htr
  have hm : 1 ≤ t.nodes.length := by omega
  have hklt : hashVal t.nodes.length c.courseId < t.nodes.length := hashVal_lt _ _ hm
  have hnodes : (insertStore t c).nodes =
      t.nodes.set (hashVal t.nodes.length c.courseId)
        (bucketAt t (hashVal t.nodes.length c.courseId) ++ [c]) := by
    simp only [insertStore, if_bucket_append, bucketAt]
  have hlen' : (insertStore t c).nodes.length = t.nodes.length := by
    rw [hnodes, List.length_set]
  refine ⟨⟨?_, ?_, ?_⟩, ?_, ?_⟩
  · rw [hlen']; exact hlen
  · exact hpos
  · intro k' c' hc'
    rw [hlen']
    by_cases hk' : hashVal t.nodes.length c.courseId = k'
    · subst hk'
      rw [bucketAt, hnodes, getD_set_self _ _ _ _ hklt] at hc'
      rcases List.mem_append.mp hc' with hmem | hmem
      · exact hbuck _ c' hmem
      · have : c' = c := by simpa using hmem
        subst this; rfl
    · rw [bucketAt, hnodes, getD_set_ne _ _ _ hk'] at hc'
      exact hbuck _ c' hc'
  · have := sum_len_set t.nodes (hashVal t.nodes.length c.courseId)
      (bucketAt t (hashVal t.nodes.length c.courseId) ++ [c]) hklt
    simp only [List.length_append, List.length_cons, List.length_nil] at this
    show t.numEntries + 1 = totalEntries (insertStore t c)
    rw [hcount]
    unfold totalEntries
    rw [hnodes]
    have hbl : (bucketAt t (hashVal t.nodes.length c.courseId)).length =
        (t.nodes.getD (hashVal t.nodes.length c.courseId) []).length := rfl
    omega
  · intro id
    rw [chainFor, bucketAt, hnodes, List.length_set]
    by_cases hid : hashVal t.nodes.length id = hashVal t.nodes.length c.courseId
    · rw [hid, getD_set_self _ _ _ _ hklt]
      by_cases hcid : c.courseId = id
      · have h1 : List.filter (byId id) [c] = [c] := by simp [byId, hcid]
        have h2 := hchain id
        rw [chainFor] at h2
        rw [hid] at h2
        rw [List.filter_append, h1, List.filter_append, h1, h2]
      · have h1 : List.filter (byId id) [c] = [] := by simp [byId, hcid]
        have h2 := hchain id
        rw [chainFor] at h2
        rw [hid] at h2
        rw [List.filter_append, h1, List.filter_append, h1, h2]
    · rw [getD_set_ne _ _ _ (fun hh => hid hh.symm)]
      have hcid : c.courseId ≠ id := by
        intro hcc
        exact hid (by rw [hcc])
      have h1 : List.filter (byId id) [c] = [] := by simp [byId, hcid]
      have h2 := hchain id
      rw [chainFor, bucketAt] at h2
      rw [h2, List.filter_append, h1]
      simp

/-- Simultaneous preservation of the tracking invariant by `insertFuel`
(first conjunct) and by the re-insertion traversal `foldIns` (second
conjunct), proven by induction on the fuel: a successful `Insert` extends
the tracked history by the inserted record, even across the rebuild
performed by `Resize`. -/
theorem insert_foldIns_tracks : ∀ fuel : Nat,
    (∀ t c t' h, insertFuel fuel t c = some t' → Tracks t h → Tracks t' (h ++ [c])) ∧
    (∀ L t₀ h₀ t₁, foldIns fuel L (some t₀) = some t₁ → Tracks t₀ h₀ →
      Tracks t₁ (h₀ ++ L)) := by
  intro fuel
  induction fuel with
  | zero =>
    constructor
    · intro t c t' h hins
      simp [insertFuel] at hins
    · intro L t₀ h₀ t₁ hfold htr
      cases L with
      | nil =>
        rw [foldIns_nil] at hfold
        cases hfold
        simpa using htr
      | cons c cs =>
        rw [foldIns_cons] at hfold
        have hz : (some t₀).bind (fun s => insertFuel 0 s c) = none := by
          simp [insertFuel]
        rw [hz, foldIns_none] at hfold
        cases hfold
  | succ fuel ih =>
    obtain ⟨ihIns, ihFold⟩ := ih
    have hIns : ∀ t c t' h, insertFuel (fuel + 1) t c = some t' → Tracks t h →
        Tracks t' (h ++ [c]) := by
      intro t c t' h hins htr
      have hm : 1 ≤ t.nodes.length := by
        have h1 := htr.1.1
        have h2 := htr.1.2.1
        omega
      rw [insertFuel_succ, if_neg (by omega)] at hins
      have hst : Tracks (insertStore t c) (h ++ [c]) := insertStore_tracks t c h htr
      by_cases hover : t.tableSize ≤ t.numEntries + 1
      · rw [if_pos hover, resizeFuel_eq_foldIns] at hins
        have hfpos : 1 ≤ nextSize (insertStore t c).tableSize := by
          have hge := nextSize_ge (insertStore t c).tableSize
          have : 1 ≤ (insertStore t c).tableSize := htr.1.2.1
          omega
        have hfresh : Tracks (mkTable (nextSize (insertStore t c).tableSize)) [] :=
          mkTable_tracks _ hfpos
        have hres := ihFold _ _ [] _ hins hfresh
        refine tracks_congr _ _ _ hres ?_
        intro id
        rw [List.nil_append, flatten_filter (insertStore t c) hst.1 id]
        exact hst.2.2 id
      · rw [if_neg hover] at hins
        cases hins
        exact hst
    refine ⟨hIns, ?_⟩
    intro L
    induction L with
    | nil =>
      intro t₀ h₀ t₁ hfold htr
      rw [foldIns_nil] at hfold
      cases hfold
      simpa using htr
    | cons c cs ihL =>
      intro t₀ h₀ t₁ hfold htr
      rw [foldIns_cons] at hfold
      cases hcase : insertFuel (fuel + 1) t₀ c with
      | none =>
        rw [show (some t₀).bind (fun s => insertFuel (fuel + 1) s c) = none by
              simp [hcase],
            foldIns_none] at hfold
        cases hfold
      | some t₂ =>
        rw [show (some t₀).bind (fun s => insertFuel (fuel + 1) s c) = some t₂ by
              simp [hcase]] at hfold
        have h₂ := hIns t₀ c t₂ h₀ hcase htr
        have := ihL t₂ (h₀ ++ [c]) t₁ hfold h₂
        simpa [List.append_assoc] using this

/-- A successful `Insert` extends the tracked history by the inserted
record. -/
theorem insertFuel_tracks (fuel : Nat) (t : HashTable) (c : Course) (t' : HashTable)
    (h : List Course) (hins : insertFuel fuel t c = some t') (htr : Tracks t h) :
    Tracks t' (h ++ [c]) :=
  (insert_foldIns_tracks fuel).1 t c t' h hins htr

/-- A successful run of `Insert` calls tracks exactly the inserted list. -/
theorem insertList_tracks (fuel : Nat) :
    ∀ (cs : List Course) (t₀ : HashTable) (h₀ : List Course) (t : HashTable),
      insertList fuel t₀ cs = some t → Tracks t₀ h₀ → Tracks t (h₀ ++ cs) := by
  intro cs
  induction cs with
  | nil =>
    intro t₀ h₀ t hrun htr
    cases hrun
    simpa using htr
  | cons c cs ihc =>
    intro t₀ h₀ t hrun htr
    rw [insertList] at hrun
    cases hcase : insertFuel fuel t₀ c with
    | none => rw [hcase] at hrun; cases hrun
    | some t₂ =>
      rw [hcase] at hrun
      have h₂ := insertFuel_tracks fuel t₀ c t₂ h₀ hcase htr
      have := ihc t₂ (h₀ ++ [c]) t hrun h₂
      simpa [List.append_assoc] using this

/-- Tables built from a fresh positive-capacity table by a run of inserts
track that insert history. -/
theorem insertList_tracks_mk (fuel n : Nat) (cs : List Course) (t : HashTable)
    (hn : 1 ≤ n) (hrun : insertList fuel (mkTable n) cs = some t) : Tracks t cs := by
  have := insertList_tracks fuel cs (mkTable n) [] t hrun (mkTable_tracks n hn)
  simpa using this

/-- On a tracked table, `Search` returns the first record of the insert
history carrying the key, and the default course if there is none. -/
theorem searchO_tracks (t : HashTable) (h : List Course) (htr : Tracks t h)
    (key : List Nat) :
    searchO t key = some ((h.find? (byId key)).getD defaultCourse) := by
  obtain ⟨⟨hlen, hpos, hbuck⟩, hcount, hchain⟩ := htr
  have hm : 1 ≤ t.nodes.length := by omega
  rw [searchO, if_neg (by omega)]
  rw [searchList_eq_find?, find?_eq_head?_filter, find?_eq_head?_filter]
  have := hchain key
  rw [chainFor, bucketAt] at this
  rw [this]

/-- The collection loop of `Sort` produces the flattened buckets. -/
theorem sortCollect_eq_flatten (t : HashTable) : sortCollect t = t.nodes.flatten := by
  have haux : ∀ (L : List (List Course)) (acc : List Course),
      L.foldl (fun a b => a ++ b) acc = acc ++ L.flatten := by
    intro L
    induction L with
    | nil => intro acc; simp
    | cons b bs ih => intro acc; simp [ih]
  simpa [sortCollect] using haux t.nodes []

/-- The bucket scan yields either a record with the searched id or the
default course. -/
theorem searchList_id_cases (key : List Nat) :
    ∀ l : List Course, (searchList key l).courseId = key ∨ searchList key l = defaultCourse := by
  intro l
  induction l with
  | nil => exact Or.inr rfl
  | cons c cs ih =>
    by_cases h : c.courseId = key
    · exact Or.inl (by simp [searchList, h])
    · simpa [searchList, h] using ih

/-! ## The claims -/

/-- C1: the claim says every resize picks the smallest prime strictly
greater than twice the old capacity, so that the capacity is prime after
every resize.  The divisor scan of `Resize` contradicts this (and its own
comments, which assert that the surviving `newSize` is prime): at old
capacity 12 the scan runs 24 → 25 (divisor 2) → 26 (divisor 5) → 27
(divisor 13) and then exits, returning 27 = 3 · 9, a composite, although
the smallest prime above 24 is 29.  A capacity-12 table reaches this at
its twelfth insert. -/
theorem resize_skips_primes_at_12 :
    nextSize 12 = 27 ∧ ¬ Nat.Prime 27 ∧ Nat.Prime 29 ∧
      (∀ p < 29, 24 < p → ¬ Nat.Prime p) ∧
      (insertList 2 (mkTable 12) twelveCourses).map HashTable.tableSize = some 27 := by
  refine ⟨by decide, by norm_num, by norm_num, ?_, by decide⟩
  intro p hp h24
  interval_cases p <;> norm_num

set_option maxRecDepth 4000 in
/-- C2 counterexample: the claim says `hash` returns the unsigned
32-bit-wraparound reference value for every key.  For the id `"CS101"`
the final accumulator pattern is 3381971780, which as a signed `int` is
negative; sign extension through the 64-bit modulo makes the code return
15 on the default capacity-179 table while the unsigned reference value
is 17. -/
theorem hash_unsigned_claim_fails :
    hashVal (mkTable DEFAULT_SIZE).nodes.length cs101.courseId = 15 ∧
      hashRefVal DEFAULT_SIZE cs101.courseId = 17 ∧
      hashVal (mkTable DEFAULT_SIZE).nodes.length cs101.courseId ≠
        hashRefVal DEFAULT_SIZE cs101.courseId := by
  refine ⟨by decide, by decide, by decide⟩

/-- C2 (amended): on a table with capacity at least 1 the hash value
always lies in `[0, capacity)`, and it equals the unsigned-wraparound
reference value whenever the final accumulator pattern is below `2^31`
(i.e. whenever the signed accumulator is non-negative); keys whose final
pattern has the sign bit set are sign-extended to 64 bits before the
final modulo and may hash elsewhere. -/
theorem hash_in_range_and_ref_on_nonneg (m : Nat) (id : List Nat) (hm : 1 ≤ m) :
    hashVal m id < m ∧ (hashAcc id < 2 ^ 31 → hashVal m id = hashRefVal m id) := by
  constructor
  · exact hashVal_lt m id hm
  · intro hlt
    rw [hashVal, hashRefVal, toSizeT, if_pos hlt]

/-- C2 witness: the single-letter id `"A"` has accumulator 4225, below
`2^31`, so the amended theorem applies concretely at capacity 179. -/
theorem hash_in_range_and_ref_on_nonneg_witness :
    hashVal 179 [65] < 179 ∧
      (hashAcc [65] < 2 ^ 31 → hashVal 179 [65] = hashRefVal 179 [65]) :=
  hash_in_range_and_ref_on_nonneg 179 [65] (by decide)

/-- C3: for every record `r` inserted into a table built from a fresh
positive-capacity table by a sequence of `Insert` calls (resizes
included), `Search` on `r`'s id returns the first record inserted with
that id: re-insertion during resizes preserves the relative order of
equal-id records, which always share a bucket. -/
theorem search_finds_first_inserted (n fuel : Nat) (cs : List Course) (t : HashTable)
    (r : Course) (hn : 1 ≤ n) (hrun : insertList fuel (mkTable n) cs = some t)
    (hr : r ∈ cs) :
    searchO t r.courseId = cs.find? (byId r.courseId) := by
  have htr := insertList_tracks_mk fuel n cs t hn hrun
  have hmem : r ∈ cs.filter (byId r.courseId) :=
    List.mem_filter.mpr ⟨hr, by simp [byId]⟩
  rw [searchO_tracks t cs htr r.courseId, find?_eq_head?_filter]
  cases hc : cs.filter (byId r.courseId) with
  | nil => rw [hc] at hmem; cases hmem
  | cons x xs => rfl

/-- C3 witness: capacity 3, four inserts (two sharing id `"CS101"`; the
third insert triggers a resize to capacity 7): searching `"CS101"`
afterwards still returns the record inserted first. -/
theorem search_finds_first_inserted_witness :
    searchO ((insertList 2 (mkTable 3) [cs101, cs101dup, cs102, math201]).getD (mkTable 3))
        cs101dup.courseId =
      [cs101, cs101dup, cs102, math201].find? (byId cs101dup.courseId) :=
  search_finds_first_inserted 3 2 [cs101, cs101dup, cs102, math201]
    ((insertList 2 (mkTable 3) [cs101, cs101dup, cs102, math201]).getD (mkTable 3))
    cs101dup (by decide) (by decide) (by decide)

/-- C4: inserting a record whose id already occurs (and which does not
trigger a resize) appends the record at the tail of the same chain,
grows the count by one, and leaves the result of searching that id
unchanged: the earlier record, first in the chain, keeps shadowing the
duplicate. -/
theorem duplicate_appends_and_is_shadowed (fuel : Nat) (t : HashTable) (c : Course)
    (hm : 1 ≤ t.nodes.length)
    (hdup : ∃ e ∈ bucketAt t (hashVal t.nodes.length c.courseId), e.courseId = c.courseId)
    (hnores : t.numEntries + 1 < t.tableSize) :
    insertFuel (fuel + 1) t c = some (insertStore t c) ∧
      bucketAt (insertStore t c) (hashVal t.nodes.length c.courseId) =
        bucketAt t (hashVal t.nodes.length c.courseId) ++ [c] ∧
      (insertStore t c).numEntries = t.numEntries + 1 ∧
      searchO (insertStore t c) c.courseId = searchO t c.courseId := by
  have hklt := hashVal_lt t.nodes.length c.courseId hm
  have hnodes : (insertStore t c).nodes =
      t.nodes.set (hashVal t.nodes.length c.courseId)
        (bucketAt t (hashVal t.nodes.length c.courseId) ++ [c]) := by
    simp only [insertStore, if_bucket_append, bucketAt]
  have hlen' : (insertStore t c).nodes.length = t.nodes.length := by
    rw [hnodes, List.length_set]
  refine ⟨?_, ?_, rfl, ?_⟩
  · rw [insertFuel_succ, if_neg (by omega), if_neg (by omega)]
  · rw [bucketAt, hnodes, getD_set_self _ _ _ _ hklt]
  · rw [searchO, searchO, if_neg (by omega), if_neg (by omega), hlen']
    rw [show (insertStore t c).nodes.getD (hashVal t.nodes.length c.courseId) [] =
          bucketAt t (hashVal t.nodes.length c.courseId) ++ [c] from by
        rw [hnodes, getD_set_self _ _ _ _ hklt]]
    rw [searchList_append_of_match c.courseId [c] _ hdup]
    rfl

/-- C4 witness: a capacity-5 table holding `cs101`; inserting the
duplicate `cs101dup` appends it behind `cs101` and searching `"CS101"`
still returns `cs101`. -/
theorem duplicate_appends_and_is_shadowed_witness :
    insertFuel 1 oneTable cs101dup = some (insertStore oneTable cs101dup) ∧
      bucketAt (insertStore oneTable cs101dup)
          (hashVal oneTable.nodes.length cs101dup.courseId) =
        bucketAt oneTable (hashVal oneTable.nodes.length cs101dup.courseId) ++ [cs101dup] ∧
      (insertStore oneTable cs101dup).numEntries = oneTable.numEntries + 1 ∧
      searchO (insertStore oneTable cs101dup) cs101dup.courseId =
        searchO oneTable cs101dup.courseId :=
  duplicate_appends_and_is_shadowed 0 oneTable cs101dup (by decide) (by decide) (by decide)

/-- C5 counterexample: the claim says every admissible `AllSorted` output
lists equal-id records in their collection order.  `Sort` sorts with
`std::sort`, whose contract promises only a sorted permutation: on a
table whose chain holds `cs101` then `cs101dup` (equal ids, different
titles), the reversed output is also a sorted permutation — admissible
for the code, but violating the claimed tie stability. -/
theorem allsorted_stability_claim_fails :
    StdSortOutput (sortCollect dupTable) [cs101dup, cs101] ∧
      ¬ StableTies (sortCollect dupTable) [cs101dup, cs101] := by
  refine ⟨⟨by decide, by decide⟩, ?_⟩
  intro hstable
  exact absurd (hstable cs101.courseId) (by decide)

/-- C5 (amended): for every table built by a run of inserts and every
admissible output of the `std::sort` call, the output contains every
stored record exactly once, its length equals the number of `Insert`
calls, and it is non-decreasing by id under lexicographic comparison —
but the order among equal ids is not specified, since `std::sort` is not
a stable sort. -/
theorem allsorted_sorted_permutation (n fuel : Nat) (cs : List Course) (t : HashTable)
    (out : List Course) (hn : 1 ≤ n) (hrun : insertList fuel (mkTable n) cs = some t)
    (hout : StdSortOutput (sortCollect t) out) :
    out.length = cs.length ∧ out.Perm (sortCollect t) ∧ out.Perm cs ∧
      SortedByIdLe out := by
  have htr := insertList_tracks_mk fuel n cs t hn hrun
  have hperm : t.nodes.flatten.Perm cs :=
    perm_of_filter_byId_eq _ _ (fun id => by
      rw [flatten_filter t htr.1 id]
      exact htr.2.2 id)
  obtain ⟨hp, hs⟩ := hout
  have hp2 : out.Perm cs := by
    rw [sortCollect_eq_flatten] at hp
    exact hp.trans hperm
  exact ⟨hp2.length_eq, hp, hp2, hs⟩

/-- C5 witness: two records inserted in reverse id order into a fresh
capacity-7 table; the id-sorted arrangement is an admissible output and
the amended theorem applies to it concretely. -/
theorem allsorted_sorted_permutation_witness :
    ([cs101, cs102] : List Course).length = ([cs102, cs101] : List Course).length ∧
      ([cs101, cs102] : List Course).Perm
        (sortCollect ((insertList 1 (mkTable 7) [cs102, cs101]).getD (mkTable 7))) ∧
      ([cs101, cs102] : List Course).Perm [cs102, cs101] ∧
      SortedByIdLe [cs101, cs102] :=
  allsorted_sorted_permutation 7 1 [cs102, cs101]
    ((insertList 1 (mkTable 7) [cs102, cs101]).getD (mkTable 7))
    [cs101, cs102] (by decide) (by decide) (by decide)

/-- C6: on any table with at least one bucket, `Insert` always succeeds
in storing the record — the count and the number of stored entries both
grow by one, with no uniqueness check — and it invokes `Resize` exactly
when the count right after its increment reaches the capacity (the
load-factor test `count / capacity ≥ 1.0`); otherwise it returns without
resizing. -/
theorem insert_stores_and_resizes_on_load (fuel : Nat) (t : HashTable) (c : Course)
    (hm : 1 ≤ t.nodes.length) :
    (insertStore t c).numEntries = t.numEntries + 1 ∧
      totalEntries (insertStore t c) = totalEntries t + 1 ∧
      insertFuel (fuel + 1) t c =
        (if t.tableSize ≤ (insertStore t c).numEntries then
          resizeFuel fuel (insertStore t c)
         else some (insertStore t c)) := by
  refine ⟨rfl, ?_, ?_⟩
  · have hklt := hashVal_lt t.nodes.length c.courseId hm
    have hsum := sum_len_set t.nodes (hashVal t.nodes.length c.courseId)
      (t.nodes.getD (hashVal t.nodes.length c.courseId) [] ++ [c]) hklt
    simp only [List.length_append, List.length_cons, List.length_nil] at hsum
    simp only [totalEntries, insertStore, if_bucket_append]
    omega
  · rw [insertFuel_succ, if_neg (by omega)]
    rfl

/-- C6 witness: the first insert into a fresh capacity-3 table stores the
record, bumps both counts to 1 and, with 1 < 3, does not resize. -/
theorem insert_stores_and_resizes_on_load_witness :
    (insertStore (mkTable 3) cs101).numEntries = (mkTable 3).numEntries + 1 ∧
      totalEntries (insertStore (mkTable 3) cs101) = totalEntries (mkTable 3) + 1 ∧
      insertFuel 1 (mkTable 3) cs101 =
        (if (mkTable 3).tableSize ≤ (insertStore (mkTable 3) cs101).numEntries then
          resizeFuel 0 (insertStore (mkTable 3) cs101)
         else some (insertStore (mkTable 3) cs101)) :=
  insert_stores_and_resizes_on_load 0 (mkTable 3) cs101 (by decide)

/-- C7: `Search` is read-only: in the state-transformer reading of the
method (`searchProc`), the capacity, the count and every bucket's chain
are identical before and after the call, for every table and key. -/
theorem search_leaves_table_unchanged (t : HashTable) (key : List Nat) :
    (searchProc t key).1.tableSize = t.tableSize ∧
      (searchProc t key).1.numEntries = t.numEntries ∧
      ∀ k, bucketAt (searchProc t key).1 k = bucketAt t k :=
  ⟨rfl, rfl, fun _ => rfl⟩

/-- C8: after construction and after every successful sequence of
`Insert` calls (including inserts that trigger a resize, which resets and
recounts), `numEntries` equals the number of occupied entries reachable
across all bucket chains. -/
theorem count_equals_reachable_entries (n fuel : Nat) (cs : List Course) (t : HashTable)
    (hn : 1 ≤ n) (hrun : insertList fuel (mkTable n) cs = some t) :
    t.numEntries = totalEntries t :=
  (insertList_tracks_mk fuel n cs t hn hrun).2.1

/-- C8 witness: three inserts into a capacity-3 table (the third triggers
a resize to capacity 7): the count matches the reachable entries. -/
theorem count_equals_reachable_entries_witness :
    ((insertList 2 (mkTable 3) [cs101, cs102, math201]).getD (mkTable 3)).numEntries =
      totalEntries ((insertList 2 (mkTable 3) [cs101, cs102, math201]).getD (mkTable 3)) :=
  count_equals_reachable_entries 3 2 [cs101, cs102, math201]
    ((insertList 2 (mkTable 3) [cs101, cs102, math201]).getD (mkTable 3))
    (by decide) (by decide)

/-- C9: whenever `Search` returns (capacity nonzero), the returned
record's id is either the searched key or the empty string: the
not-found sentinel is the default-constructed course, whose id is empty,
so at this interface a record stored under the empty id is
indistinguishable from a not-found result. -/
theorem search_result_id_or_empty (t : HashTable) (key : List Nat) (c : Course)
    (hres : searchO t key = some c) : c.courseId = key ∨ c.courseId = [] := by
  rw [searchO] at hres
  by_cases hz : t.nodes.length = 0
  · rw [if_pos hz] at hres; cases hres
  · rw [if_neg hz] at hres
    cases hres
    rcases searchList_id_cases key (t.nodes.getD (hashVal t.nodes.length key) []) with h | h
    · exact Or.inl h
    · exact Or.inr (by rw [h]; rfl)

/-- C9 witness: searching the id `"XY"` on a table that does not store
it returns the default course, whose id is empty. -/
theorem search_result_id_or_empty_witness :
    defaultCourse.courseId = [88, 89] ∨ defaultCourse.courseId = [] :=
  search_result_id_or_empty oneTable [88, 89] defaultCourse (by decide)

/-- C10: construction with capacity 0 is accepted and yields a table with
zero buckets, but then every `Insert` and every `Search` fails on the
modulo by zero inside `hash` (the guarded `none` outcome, for every
amount of fuel — so it is not fuel exhaustion), whereas with at least one
bucket `Search` always returns and a non-resizing `Insert` always
returns: `hash` is well defined, and `Insert`/`Search` total, only under
the precondition `capacity ≥ 1`. -/
theorem capacity_zero_breaks_hash :
    (mkTable 0).tableSize = 0 ∧ (mkTable 0).nodes.length = 0 ∧
      (∀ fuel (c : Course), insertFuel (fuel + 1) (mkTable 0) c = none) ∧
      (∀ key, searchO (mkTable 0) key = none) ∧
      (∀ t key, 1 ≤ t.nodes.length → searchO t key ≠ none) ∧
      (∀ fuel (t : HashTable) (c : Course), 1 ≤ t.nodes.length →
        t.numEntries + 1 < t.tableSize → insertFuel (fuel + 1) t c ≠ none) := by
  refine ⟨rfl, rfl, ?_, ?_, ?_, ?_⟩
  · intro fuel c
    rw [insertFuel_succ, if_pos (show (mkTable 0).nodes.length = 0 from rfl)]
  · intro key
    rw [searchO, if_pos (show (mkTable 0).nodes.length = 0 from rfl)]
  · intro t key hm
    rw [searchO, if_neg (by omega)]
    exact Option.some_ne_none _
  · intro fuel t c hm hlt
    rw [insertFuel_succ, if_neg (by omega), if_neg (by omega)]
    exact Option.some_ne_none _

/-- C10 witness: the capacity-0 failures and the capacity-positive
successes at concrete inputs. -/
theorem capacity_zero_breaks_hash_witness :
    insertFuel 1 (mkTable 0) cs101 = none ∧
      searchO (mkTable 0) cs101.courseId = none ∧
      searchO oneTable cs101.courseId ≠ none ∧
      insertFuel 1 oneTable cs102 ≠ none :=
  ⟨capacity_zero_breaks_hash.2.2.1 0 cs101,
   capacity_zero_breaks_hash.2.2.2.1 cs101.courseId,
   capacity_zero_breaks_hash.2.2.2.2.1 oneTable cs101.courseId (by decide),
   capacity_zero_breaks_hash.2.2.2.2.2 0 oneTable cs102 (by decide) (by decide)⟩
